import Mathlib

/-!
Verification development for the Golf-Promo-Radar scraper backend
(`server.py`).  The Python source is shallowly embedded: strings are
`String`/`List Char`, timestamps are `Nat` seconds (the code compares
`total_seconds()/3600` against hour thresholds over the reals, which for
integral-second timestamps is exactly the comparison of the second counts
used here), dictionaries are association lists, and Python truthiness of
optional string fields is made explicit.  Character case operations model
Python `str.lower`/`str.upper`/`str.isupper` on the ASCII range, which
covers every string the guard lists and claims mention.
-/

namespace PromoRadar

/-- Python whitespace for `str.strip`, `str.split` and the regex class `\s`
(ASCII range). -/
def pySpace (c : Char) : Bool :=
  c = ' ' || c = '\t' || c = '\n' || c = '\r' || c = '\x0b' || c = '\x0c'

/-- Model of Python `str.lower` (ASCII case model). -/
def pyLower (s : String) : String :=
  String.mk (s.data.map Char.toLower)

/-- Model of Python `str.upper` (ASCII case model). -/
def pyUpper (s : String) : String :=
  String.mk (s.data.map Char.toUpper)

/-- Model of Python `str.strip()`. -/
def pyStrip (s : String) : String :=
  String.mk (((s.data.dropWhile pySpace).reverse.dropWhile pySpace).reverse)

/-- Model of `re.sub(r'\s+', ' ', s)`: every maximal whitespace run
becomes a single space.  The flag records whether the previous character
was whitespace. -/
def collapseWsAux : List Char → Bool → List Char
  | [], _ => []
  | c :: rest, prevSpace =>
    if pySpace c then
      if prevSpace then collapseWsAux rest true
      else ' ' :: collapseWsAux rest true
    else c :: collapseWsAux rest false

/-- Model of `re.sub(r'\s+', ' ', s)`. -/
def collapseWs (s : String) : String :=
  String.mk (collapseWsAux s.data false)

/-- Does `hay` start with `needle`? -/
def startsWithL : List Char → List Char → Bool
  | [], _ => true
  | _ :: _, [] => false
  | n :: ns, h :: hs => n = h && startsWithL ns hs

/-- Python `needle in hay` substring test. -/
def isSubstr (needle : List Char) : List Char → Bool
  | [] => startsWithL needle []
  | c :: rest => startsWithL needle (c :: rest) || isSubstr needle rest

/-- Fuel-indexed helper for `countSub`; the fuel only needs to bound the
length of the text, and each step consumes at least one character. -/
def countSubAux (needle : List Char) : Nat → List Char → Nat
  | 0, _ => 0
  | _ + 1, [] => 0
  | fuel + 1, c :: rest =>
    if !needle.isEmpty && startsWithL needle (c :: rest) then
      1 + countSubAux needle fuel (rest.drop (needle.length - 1))
    else
      countSubAux needle fuel rest

/-- Python `str.count(sub)`: non-overlapping occurrences, scanning left to
right. -/
def countSub (needle : List Char) (hay : List Char) : Nat :=
  countSubAux needle hay.length hay

/-- Auxiliary word counter: `len(text.split())`, counting maximal
non-whitespace runs.  The flag records whether we are inside a word. -/
def wordCountAux : List Char → Bool → Nat
  | [], _ => 0
  | c :: rest, inWord =>
    if pySpace c then wordCountAux rest false
    else (if inWord then 0 else 1) + wordCountAux rest true

/-- Model of `len(text.split())`. -/
def pyWordCount (s : String) : Nat :=
  wordCountAux s.data false

/-- Model of Python `str.isupper` (ASCII case model): at least one letter
and no lowercase letter. -/
def pyIsUpper (l : List Char) : Bool :=
  l.any (fun c => c.isAlpha) && l.all (fun c => !c.isLower)

/-- Membership of a string in a list of strings (Python `in` on a list or
set of strings). -/
def containsS : List String → String → Bool
  | [], _ => false
  | s :: rest, k => s = k || containsS rest k

/-- JUNK_PHRASES from `server.py` (lines 752-771).  The last two phrases
contain the literal mojibake character sequences present in the source
file bytes. -/
def JUNK_PHRASES : List String :=
  ["shop now", "shop all", "view all", "see all", "learn more", "read more",
   "sign in", "log in", "my account", "cart", "checkout", "search",
   "menu", "close", "open", "skip to", "accessibility",
   "men", "women", "new arrivals", "best sellers", "collections",
   "contact us", "customer service", "help", "faq",
   "privacy policy", "terms", "cookie", "accept",
   "instagram", "facebook", "twitter", "tiktok", "youtube", "pinterest",
   "download", "app store", "google play",
   "united states", "select country", "change location",
   "loading", "please wait",
   "limited support for your browser", "we recommend switching", "recommend switching to",
   "chrome, safari", "edge, chrome", "firefox",
   "congratulations! your order", "your order qualifies", "order qualifies for",
   "your cart is empty", "no items in", "items in your cart",
   "currency", "usd $", "eur â‚¬", "gbp Â£"]

/-- PROMO_BOOST_WORDS from `server.py` (lines 774-779). -/
def PROMO_BOOST_WORDS : List String :=
  ["off", "save", "discount", "deal", "sale", "code", "promo",
   "free shipping", "gift", "extra", "clearance", "final",
   "limited", "today", "ends", "last chance", "hurry",
   "holiday", "cyber", "black friday", "bogo", "buy one"]

/-- The bullet separator counted by `is_junk_text`; the source file holds
the three-character mojibake sequence, not a single bullet character. -/
def bulletSeq : String := "â€¢"

/-- The angle-quote separator counted by `is_junk_text` (same mojibake
encoding as `bulletSeq`). -/
def angleSeq : String := "â€º"

/-- Number of JUNK_PHRASES occurring in the lowered text:
`sum(1 for phrase in JUNK_PHRASES if phrase in text_lower)`. -/
def junkPhraseCount (text : String) : Nat :=
  JUNK_PHRASES.countP (fun p => isSubstr p.data (pyLower text).data)

/-- Translation of `is_junk_text` (`server.py` lines 782-804). -/
def is_junk_text (text : String) : Bool :=
  if text.length < 15 || text.length > 300 then true
  else if junkPhraseCount text > 2 ||
      (junkPhraseCount text > 0 && pyWordCount text < 8) then true
  else if countSub "|".data text.data > 2 || countSub bulletSeq.data text.data > 2 ||
      countSub angleSeq.data text.data > 2 then true
  else if pyIsUpper text.data && text.length > 50 then true
  else false

/-- Generic regex-position scanner: does the position predicate hold on
some suffix of the text?  (`re.search` succeeds iff the pattern matches
starting at some position.) -/
def scanAny (p : List Char → Bool) : List Char → Bool
  | [] => p []
  | c :: rest => p (c :: rest) || scanAny p rest

/-- Position predicate for `re.search(r'\d+%', text)`: a digit directly
followed by a percent sign (a `\d+%` match exists iff some digit is
directly followed by a percent sign). -/
def digitPctAt : List Char → Bool
  | a :: b :: _ => a.isDigit && b = '%'
  | _ => false

/-- Position predicate for `re.search(r'\$\d+', text)`. -/
def dollarDigitAt : List Char → Bool
  | a :: b :: _ => a = '$' && b.isDigit
  | _ => false

/-- Position predicate for `code[:\s]+[A-Z0-9]+` with IGNORECASE
(`score_promo_text` line 824): the keyword case-insensitively, a nonempty
run of colons/whitespace, then an alphanumeric character.  Backtracking
inside `[:\s]+` cannot create further matches because a colon or space is
never alphanumeric. -/
def codeTokenAt (l : List Char) : Bool :=
  match l with
  | c1 :: c2 :: c3 :: c4 :: rest =>
    c1.toLower = 'c' && c2.toLower = 'o' && c3.toLower = 'd' && c4.toLower = 'e' &&
    (let run := rest.takeWhile (fun c => c = ':' || pySpace c)
     !run.isEmpty &&
       (match rest.drop run.length with
        | a :: _ => a.isAlphanum
        | [] => false))
  | _ => false

/-- Position predicate for `(\d+)%\s*off` on the lowered text. -/
def pctOffAt : List Char → Bool
  | a :: b :: rest =>
    a.isDigit && b = '%' && startsWithL "off".data (rest.dropWhile pySpace)
  | _ => false

/-- Position predicate for `save\s*\$?(\d+)` on the lowered text. -/
def saveDollarAt (l : List Char) : Bool :=
  startsWithL "save".data l &&
    (let rest := (l.drop 4).dropWhile pySpace
     match rest with
     | '$' :: t => (match t with | d :: _ => d.isDigit | [] => false)
     | d :: _ => d.isDigit
     | [] => false)

/-- Position predicate for `(code|promo)[:\s]+([A-Z0-9]+)` (no IGNORECASE;
`matches_promo` runs it on the lowered text, so the token class only
matches digits in practice, but the class is kept as written). -/
def codePromoAt (l : List Char) : Bool :=
  let kwLen : Nat := if startsWithL "code".data l then 4
    else if startsWithL "promo".data l then 5 else 0
  !(kwLen = 0) &&
    (let rest := l.drop kwLen
     let run := rest.takeWhile (fun c => c = ':' || pySpace c)
     !run.isEmpty &&
       (match rest.drop run.length with
        | a :: _ => a.isUpper || a.isDigit
        | [] => false))

/-- Position predicate for `extra\s+(\d+)%` on the lowered text. -/
def extraPctAt (l : List Char) : Bool :=
  startsWithL "extra".data l &&
    (let rest := l.drop 5
     let run := rest.takeWhile pySpace
     !run.isEmpty &&
       (let r2 := rest.drop run.length
        let ds := r2.takeWhile Char.isDigit
        !ds.isEmpty &&
          (match r2.drop ds.length with
           | '%' :: _ => true
           | _ => false)))

/-- Position predicate for `up to (\d+)%` on the lowered text. -/
def upToPctAt (l : List Char) : Bool :=
  startsWithL "up to ".data l &&
    (let r2 := l.drop 6
     let ds := r2.takeWhile Char.isDigit
     !ds.isEmpty &&
       (match r2.drop ds.length with
        | '%' :: _ => true
        | _ => false))

/-- Translation of `matches_promo` (`server.py` lines 870-876) over the
PROMO_PATTERNS list (lines 709-728). -/
def matches_promo (text : String) : Bool :=
  let tl := (pyLower text).data
  scanAny pctOffAt tl ||
  scanAny saveDollarAt tl ||
  isSubstr "free shipping".data tl ||
  scanAny codePromoAt tl ||
  isSubstr "sitewide".data tl ||
  isSubstr "limited time".data tl ||
  isSubstr "flash sale".data tl ||
  scanAny extraPctAt tl ||
  scanAny upToPctAt tl ||
  isSubstr "sale".data tl ||
  isSubstr "clearance".data tl ||
  isSubstr "bogo".data tl ||
  isSubstr "buy one get".data tl ||
  isSubstr "final sale".data tl ||
  isSubstr "warehouse sale".data tl ||
  isSubstr "holiday".data tl ||
  isSubstr "cyber".data tl ||
  isSubstr "black friday".data tl

/-- Translation of `score_promo_text` (`server.py` lines 807-842). -/
def score_promo_text (text : String) : Int :=
  let tl := (pyLower text).data
  let s1 : Int := if scanAny digitPctAt text.data then 30 else 0
  let s2 : Int := if scanAny dollarDigitAt text.data then s1 + 20 else s1
  let s3 : Int := s2 + 10 * (PROMO_BOOST_WORDS.countP (fun w => isSubstr w.data tl) : Int)
  let s4 : Int := if scanAny codeTokenAt text.data then s3 + 25 else s3
  let s5 : Int := s4 - 15 * (JUNK_PHRASES.countP (fun p => isSubstr p.data tl) : Int)
  let s6 : Int := if text.length > 150 then s5 - 10 else s5
  let s7 : Int := if text.length > 200 then s6 - 20 else s6
  if 30 < text.length ∧ text.length < 100 then s7 + 10 else s7

/-! ### Deal identity and history store (`server.py` lines 39-230) -/

/-- Freshness window constants (`server.py` lines 45-46). -/
def DEAL_EXPIRE_HOURS : Nat := 24

/-- Staleness threshold in days (`server.py` line 46). -/
def DEAL_STALE_DAYS : Nat := 7

/-- One scraped record (the dict built per brand by `scrape_brand`; impact
and clearance records use the `offer` field instead of `promo`).  Optional
fields are `none` when the Python value is `None`; Python truthiness of
these fields is `truthyS`. -/
structure Deal where
  brand : String
  promo : Option String
  offer : Option String
  code : Option String
  email_offer : Option String
  url : Option String
  affiliate_url : Option String
deriving DecidableEq, Repr

/-- Python truthiness of an optional string (`None` and `""` are falsy). -/
def truthyS : Option String → Bool
  | none => false
  | some s => s ≠ ""

/-- The promo text chosen by `deal.get("promo") or deal.get("offer") or ""`. -/
def dealPromoText (d : Deal) : String :=
  if truthyS d.promo then d.promo.getD ""
  else if truthyS d.offer then d.offer.getD ""
  else ""

/-- Translation of `get_deal_key` (`server.py` lines 52-59): lower-cased
stripped brand, a colon, and the first 100 characters of the lower-cased,
stripped, whitespace-collapsed promo text. -/
def get_deal_key (d : Deal) : String :=
  pyStrip (pyLower d.brand) ++ ":" ++
    (collapseWs (pyStrip (pyLower (dealPromoText d)))).take 100

/-- One entry of the persisted deal history (`deal_history.json` values).
`expires` is `none` when the key is missing or the stored value is null;
timestamps are seconds. -/
structure HistoryEntry where
  first_seen : Nat
  last_seen : Nat
  times_seen : Nat
  brand : String
  promo_preview : String
  expires : Option Nat
deriving DecidableEq, Repr

/-- The history dict, as an association list (Python dict with string
keys; keys are unique in any store the program builds). -/
abbrev History : Type := List (String × HistoryEntry)

/-- Dict lookup `history[key]` / `key in history`. -/
def lookupH : History → String → Option HistoryEntry
  | [], _ => none
  | kv :: rest, k => if kv.1 = k then some kv.2 else lookupH rest k

/-- Dict update `history[key] = v` (replaces the entry if the key exists,
appends it otherwise, preserving insertion order as a Python dict does). -/
def hInsert (k : String) (v : HistoryEntry) (h : History) : History :=
  if (lookupH h k).isSome then
    h.map (fun kv => if kv.1 = k then (k, v) else kv)
  else h ++ [(k, v)]

/-- Dict deletion `del history[key]`. -/
def eraseH (k : String) (h : History) : History :=
  h.filter (fun kv => kv.1 ≠ k)

/-- A scraped record enriched with the derived freshness metadata
(`deal_with_meta`, `server.py` lines 200-208). -/
structure FreshDeal where
  deal : Deal
  first_seen : Nat
  last_seen : Nat
  times_seen : Nat
  is_new : Bool
  is_stale : Bool
  is_expired : Bool
  expires : Option Nat
deriving DecidableEq, Repr

/-- Result of one iteration of the `for deal in deals` loop of
`update_deal_history`: the updated history, the optional fresh deal kept
for output, and whether `parse_expiration_date` was invoked in this
iteration (the guard on line 183). -/
structure StepResult where
  hist : History
  fresh : Option FreshDeal
  inferRan : Bool

/-- The `expires` value currently stored for a key (`none` when the key is
absent or its `expires` field is missing/null). -/
def entryExpires (h : History) (k : String) : Option Nat :=
  match lookupH h k with
  | some e => e.expires
  | none => none

/-- Translation of the body of the `for deal in deals` loop of
`update_deal_history` (`server.py` lines 160-212).  `parseExp` stands for
`parse_expiration_date` applied at the current wall-clock time; its
internals (date parsing) are not needed by any claim, so it is passed as
a function argument.  Hour/day comparisons on float hours are rendered as
the equivalent comparisons on second counts. -/
def processDeal (parseExp : String → Option Nat) (now : Nat) (d : Deal) (h : History) :
    StepResult :=
  let key := get_deal_key d
  let promo_text := dealPromoText d
  let found := lookupH h key
  let entry0 : HistoryEntry :=
    match found with
    | some e => { e with last_seen := now, times_seen := e.times_seen + 1 }
    | none =>
      { first_seen := now, last_seen := now, times_seen := 1,
        brand := d.brand, promo_preview := promo_text.take 60, expires := none }
  let first_seen : Nat :=
    match found with
    | some e => e.first_seen
    | none => now
  let inferRan := entry0.expires.isNone
  let entry1 : HistoryEntry :=
    if entry0.expires.isNone then { entry0 with expires := parseExp promo_text } else entry0
  let is_expired : Bool :=
    match entry1.expires with
    | some t => decide (t < now)
    | none => false
  let age := now - first_seen
  let fd : FreshDeal :=
    { deal := d,
      first_seen := entry1.first_seen, last_seen := entry1.last_seen,
      times_seen := entry1.times_seen,
      is_new := decide (age < 24 * 3600),
      is_stale := decide (age > DEAL_STALE_DAYS * 86400),
      is_expired := is_expired,
      expires := entry1.expires }
  { hist := hInsert key entry1 h,
    fresh := if is_expired then none else some fd,
    inferRan := inferRan }

/-- The upsert phase of `update_deal_history`: the whole `for deal in
deals` loop, threading the history and collecting the fresh-deal output
list in deal order. -/
def upsertAll (parseExp : String → Option Nat) (now : Nat) :
    List Deal → History → History × List FreshDeal
  | [], h => (h, [])
  | d :: ds, h =>
    let r := processDeal parseExp now d h
    let rest := upsertAll parseExp now ds r.hist
    (rest.1, r.fresh.toList ++ rest.2)

/-- The eviction condition of `update_deal_history` (lines 216-221): the
key was not seen this cycle and `(now - last_seen)` strictly exceeds
`DEAL_EXPIRE_HOURS` hours (in seconds: more than 86400 seconds). -/
def evictCond (seen : List String) (now : Nat) (kv : String × HistoryEntry) : Bool :=
  !containsS seen kv.1 && decide (now - kv.2.last_seen > DEAL_EXPIRE_HOURS * 3600)

/-- The `expired_keys` list collected on lines 215-221. -/
def expiredKeysOf (seen : List String) (now : Nat) (h : History) : List String :=
  (h.filter (evictCond seen now)).map Prod.fst

/-- The deletion loop on lines 223-224. -/
def eraseAll (ks : List String) (h : History) : History :=
  ks.foldl (fun hh k => eraseH k hh) h

/-- Translation of `update_deal_history` (`server.py` lines 147-229):
upsert every deal, then evict stale unseen keys. -/
def update_deal_history (parseExp : String → Option Nat) (now : Nat)
    (deals : List Deal) (history : History) : History × List FreshDeal :=
  let seen_keys := deals.map get_deal_key
  let r := upsertAll parseExp now deals history
  (eraseAll (expiredKeysOf seen_keys now r.1) r.1, r.2)

/-! ### Snapshot assembly (`save_data`, `server.py` lines 1861-1927) -/

/-- One element of the `codes` array of the snapshot (lines 1897-1909). -/
structure CodeEntry where
  brand : String
  code : String
  discount : String
  url : Option String
  affiliate_url : Option String
  is_new : Bool
  first_seen : Nat
  expires : Option Nat
deriving DecidableEq, Repr

/-- One element of the `emailOffers` array of the snapshot (lines
1910-1919). -/
structure EmailEntry where
  brand : String
  offer : String
  method : String
  url : Option String
  affiliate_url : Option String
deriving DecidableEq, Repr

/-- The persisted snapshot document (`promo_data.json`; `lastUpdated` is a
wall-clock string and is not modelled). -/
structure Snapshot where
  criticalHitIndex : Nat
  promos : List FreshDeal
  codes : List CodeEntry
  emailOffers : List EmailEntry
  clearance : List FreshDeal
  impactDeals : List FreshDeal
deriving Repr

/-- The `codes` array element built from a fresh promo (lines 1898-1907). -/
def mkCodeEntry (p : FreshDeal) : CodeEntry :=
  { brand := p.deal.brand, code := p.deal.code.getD "",
    discount := (p.deal.promo.getD "").take 60,
    url := p.deal.url, affiliate_url := p.deal.affiliate_url,
    is_new := p.is_new, first_seen := p.first_seen, expires := p.expires }

/-- The `emailOffers` array element built from a raw scraped record
(lines 1911-1917). -/
def mkEmailEntry (p : Deal) : EmailEntry :=
  { brand := p.brand, offer := p.email_offer.getD "", method := "Website",
    url := p.url, affiliate_url := p.affiliate_url }

/-- Translation of `save_data` (`server.py` lines 1861-1927).  All three
`update_deal_history` calls of one save happen within the same cycle, so
they share the single cycle timestamp `now` (cycle granularity is the
spec's unit of time).  Returns the snapshot and the persisted history. -/
def save_data (parseExp : String → Option Nat) (now : Nat)
    (promos clearance impact_deals : List Deal) (history : History)
    (prevIndex : Nat) : Snapshot × History :=
  let active_promos := promos.filter (fun p => truthyS p.promo)
  let r1 := update_deal_history parseExp now active_promos history
  let r2 := if clearance ≠ [] then update_deal_history parseExp now clearance r1.1
            else (r1.1, [])
  let r3 := if impact_deals ≠ [] then update_deal_history parseExp now impact_deals r2.1
            else (r2.1, [])
  ({ criticalHitIndex := prevIndex + 1,
     promos := r1.2,
     codes := (r1.2.filter (fun p => truthyS p.deal.code)).map mkCodeEntry,
     emailOffers := (promos.filter (fun p => truthyS p.email_offer)).map mkEmailEntry,
     clearance := r2.2,
     impactDeals := r3.2 }, r3.1)

/-! ### Code mining (`extract_code` lines 885-919,
`extract_popup_codes_from_scripts` lines 922-1014) -/

/-- The Phase-1 blacklist of `extract_code` (lines 899-900). -/
def extract_code_blacklist : List String :=
  ["DEFAULT", "TRUE", "FALSE", "NULL", "UNDEFINED", "FUNCTION",
   "RETURN", "CONST", "VAR", "HTTP", "HTTPS", "HTML", "CSS"]

/-- Is the character a hexadecimal digit as used by the color-code guard
`re.match(r'^[A-F0-9]+$', code)` on an upper-cased token? -/
def isHexUpper (c : Char) : Bool :=
  c.isDigit || ('A' ≤ c && c ≤ 'F')

/-- The guards applied to each Phase-1 token candidate in `extract_code`
(lines 907-917): blacklist, length 4-15, and the 6-character
pure-hexadecimal rejection. -/
def phase1GuardOk (code : String) : Bool :=
  !containsS extract_code_blacklist code &&
  !(code.length < 4 || code.length > 15) &&
  !(code.length = 6 && code.data.all isHexUpper)

/-- The token loop of `extract_code`, over the stream of regex captures
(already upper-case, since the patterns run on `text.upper()`), in scan
order: the first token passing the guards wins. -/
def extract_code_tokens : List String → Option String
  | [] => none
  | c :: rest => if phase1GuardOk c then some c else extract_code_tokens rest

/-- The Phase-2 blacklist of `extract_popup_codes_from_scripts`
(lines 962-968). -/
def popup_blacklist : List String :=
  ["HTTP", "HTTPS", "HTML", "CSS", "USD", "OFF", "NEW",
   "SALE", "SHOP", "FREE", "BOGO", "SIZE", "VIEW", "ITEM",
   "ITEMS", "CART", "HERE", "WITH", "YOUR", "THIS", "THAT",
   "MORE", "LESS", "ONLY", "JUST", "BEST", "GIFT", "NONE",
   "TRUE", "FALSE", "NULL", "UNDEFINED", "FUNCTION", "RETURN",
   "CONST", "VAR", "LET", "CLASS", "SCRIPT", "TYPE", "TEXT",
   "AUTO", "BLOCK", "FLEX", "GRID", "FIXED", "STATIC"]

/-- The acceptance test applied to each script-sourced Phase-2 candidate
(lines 992-998): own blacklist, length 4-20, dedup, at least one letter,
and a digit or length at least 6.  No hexadecimal guard. -/
def popupScriptAccept (codes_found : List String) (code : String) : Bool :=
  !containsS popup_blacklist code &&
  4 ≤ code.length && code.length ≤ 20 &&
  !containsS codes_found code &&
  code.data.any (fun c => 'A' ≤ c && c ≤ 'Z') &&
  (code.data.any Char.isDigit || 6 ≤ code.length)

/-- The script half of `extract_popup_codes_from_scripts`: fold the
acceptance test over the stream of regex captures (the harvesting of
captures from inline script bodies is abstracted as the input list, in
document order); each capture is upper-cased first (line 992). -/
def popupScriptFold (tokens : List String) (init : List String) : List String :=
  tokens.foldl
    (fun found tok =>
      let code := pyUpper tok
      if popupScriptAccept found code then found ++ [code] else found)
    init

/-- The acceptance test applied to each data-attribute Phase-2 candidate
(lines 1001-1009): non-empty, own blacklist, length at least 4, dedup.
No upper length bound, no letter requirement, no hexadecimal guard. -/
def popupDataAccept (codes_found : List String) (code : String) : Bool :=
  code ≠ "" &&
  !containsS popup_blacklist code &&
  4 ≤ code.length &&
  !containsS codes_found code

/-- The data-attribute half of `extract_popup_codes_from_scripts`
(values of `data-coupon` then `data-code` attributes, upper-cased). -/
def popupDataFold (attrs : List String) (init : List String) : List String :=
  attrs.foldl
    (fun found a =>
      let code := pyUpper a
      if popupDataAccept found code then found ++ [code] else found)
    init

/-- Translation of `extract_popup_codes_from_scripts` over the three
candidate streams it scans, in the order the function scans them. -/
def extract_popup_codes (scriptTokens dataCoupons dataCodes : List String) :
    List String :=
  popupDataFold dataCodes (popupDataFold dataCoupons (popupScriptFold scriptTokens []))

/-! ### Candidate collection and selection (`scrape_brand`,
`server.py` lines 1447-1532) -/

/-- The three candidate source zones of `scrape_brand`. -/
inductive Zone
  | announcement
  | banner
  | text_match
deriving DecidableEq, Repr

/-- A collected candidate `(text, score, source)` (the tuples appended on
lines 1477, 1507, 1520). -/
structure Candidate where
  text : String
  score : Int
  zone : Zone
deriving DecidableEq, Repr

/-- The per-zone survival filter: announcement and banner candidates must
be non-empty, match a promo pattern and pass the junk filter (lines 1475,
1505); text-match candidates need length strictly between 15 and 200 and
the junk filter (line 1518). -/
def zoneOk : Zone → String → Bool
  | .announcement, t => !(t = "") && matches_promo t && !is_junk_text t
  | .banner, t => !(t = "") && matches_promo t && !is_junk_text t
  | .text_match, t => !(t = "") && decide (15 < t.length) && decide (t.length < 200) &&
      !is_junk_text t

/-- The stored score of a candidate: announcement-bar candidates get a +20
bonus on top of `score_promo_text` (line 1476); the other zones store the
raw `score_promo_text` (lines 1506, 1519). -/
def zoneScore : Zone → String → Int
  | .announcement, t => score_promo_text t + 20
  | .banner, t => score_promo_text t
  | .text_match, t => score_promo_text t

/-- Collect the surviving candidates of one brand's extraction pass from
the texts read in each zone, in the order `scrape_brand` appends them. -/
def collectCandidates (ann ban txt : List String) : List Candidate :=
  (ann.filter (zoneOk .announcement)).map
      (fun t => ⟨t, zoneScore .announcement t, .announcement⟩) ++
  (ban.filter (zoneOk .banner)).map
      (fun t => ⟨t, zoneScore .banner t, .banner⟩) ++
  (txt.filter (zoneOk .text_match)).map
      (fun t => ⟨t, zoneScore .text_match t, .text_match⟩)

/-- Descending order on stored scores, as used by
`candidates.sort(key=lambda x: x[1], reverse=True)`. -/
def candOrder (a b : Candidate) : Prop := b.score ≤ a.score

instance : DecidableRel candOrder :=
  fun a b => inferInstanceAs (Decidable (b.score ≤ a.score))

instance : IsTotal Candidate candOrder :=
  ⟨fun a b => Int.le_total b.score a.score⟩

instance : IsTrans Candidate candOrder :=
  ⟨fun _ _ _ hab hbc => le_trans hbc hab⟩

/-- Translation of the selection step (lines 1522-1528): stable-sort the
candidates by score descending (Python `list.sort` is stable, as is
insertion sort), take the first, and accept it only if its stored score
strictly exceeds 10. -/
def selectBest (cands : List Candidate) : Option Candidate :=
  match List.insertionSort candOrder cands with
  | [] => none
  | c :: _ => if c.score > 10 then some c else none

/-! ### Derived notions used by the claims -/

/-- The times-seen counter stored for a key, `0` when the key is absent. -/
def timesSeenOf (h : History) (k : String) : Nat :=
  match lookupH h k with
  | some e => e.times_seen
  | none => 0

/-- The keys of a history store are pairwise distinct (true of every
Python dict). -/
def nodupKeys (h : History) : Prop :=
  (h.map Prod.fst).Nodup

/-- Store invariant carried through cycles: every entry's timestamps are
ordered and bounded by the time of the last cycle that touched the store. -/
def histInv (t : Nat) (h : History) : Prop :=
  ∀ kv ∈ h, kv.2.first_seen ≤ kv.2.last_seen ∧ kv.2.last_seen ≤ t

/-- History stores reachable from the empty store by cycle updates with
non-decreasing cycle times (any deal batches, any expiration parser). -/
inductive ReachableHist : Nat → History → Prop
  | init : ReachableHist 0 []
  | step (parseExp : String → Option Nat) (deals : List Deal) (t now : Nat)
      (h : History) : ReachableHist t h → t ≤ now →
      ReachableHist now (update_deal_history parseExp now deals h).1

/-- The junk-filter rejection condition exactly as the claim states it:
length out of the 15-300 range; more than two boilerplate phrases, or at
least one boilerplate phrase with fewer than eight words; more than two
occurrences of a pipe or bullet separator; or over 50 characters and fully
upper-case. -/
def isJunkClaim (text : String) : Bool :=
  (decide (text.length < 15) || decide (text.length > 300)) ||
  (decide (junkPhraseCount text > 2) ||
    (decide (junkPhraseCount text ≥ 1) && decide (pyWordCount text < 8))) ||
  (decide (countSub "|".data text.data > 2) ||
    decide (countSub bulletSeq.data text.data > 2) ||
    decide (countSub angleSeq.data text.data > 2)) ||
  (decide (text.length > 50) && pyIsUpper text.data)

/-- The entry stored for a deal's key by one loop iteration of
`update_deal_history`, fully evaluated: an existing entry gets
`last_seen = now`, `times_seen + 1` and (only if unset) a parsed
expiration; a fresh entry gets both timestamps `now`, counter 1, the
60-character promo preview and a parsed expiration. -/
def procEntry (parseExp : String → Option Nat) (now : Nat) (d : Deal)
    (h : History) : HistoryEntry :=
  match lookupH h (get_deal_key d) with
  | some e =>
    { e with
      last_seen := now,
      times_seen := e.times_seen + 1,
      expires := if e.expires.isNone then parseExp (dealPromoText d) else e.expires }
  | none =>
    { first_seen := now, last_seen := now, times_seen := 1,
      brand := d.brand, promo_preview := (dealPromoText d).take 60,
      expires := parseExp (dealPromoText d) }

/-- The `first_seen` local variable of the loop body: the stored
first-seen timestamp, or `now` for a fresh key. -/
def procFirstSeen (now : Nat) (d : Deal) (h : History) : Nat :=
  match lookupH h (get_deal_key d) with
  | some e => e.first_seen
  | none => now

/-- The `is_expired` local variable of the loop body: the (possibly just
parsed) stored expiry has strictly passed. -/
def procIsExpired (parseExp : String → Option Nat) (now : Nat) (d : Deal)
    (h : History) : Bool :=
  match (procEntry parseExp now d h).expires with
  | some t => decide (t < now)
  | none => false

/-- The `deal_with_meta` record built by the loop body. -/
def procFresh (parseExp : String → Option Nat) (now : Nat) (d : Deal)
    (h : History) : FreshDeal :=
  { deal := d,
    first_seen := procFirstSeen now d h,
    last_seen := now,
    times_seen := (procEntry parseExp now d h).times_seen,
    is_new := decide (now - procFirstSeen now d h < 24 * 3600),
    is_stale := decide (now - procFirstSeen now d h > DEAL_STALE_DAYS * 86400),
    is_expired := procIsExpired parseExp now d h,
    expires := (procEntry parseExp now d h).expires }

/-! ### Concrete fixtures for counterexamples and witnesses.
`pfNone` agrees with `parse_expiration_date` on every promo text that
contains no temporal cue; in particular `parse_expiration_date("")` is
`None` (`server.py` lines 81-82), which is the only value the fixtures
below feed it. -/

/-- An expiration parser that never finds a date. -/
def pfNone : String → Option Nat := fun _ => none

/-- A deal with a plain promo text. -/
def dealA : Deal :=
  ⟨"Acme Golf", some "Save 20% off sitewide", none, none, none, none, none⟩

/-- A deal with neither promo nor offer text (its promo text is `""`). -/
def dealNoText : Deal :=
  ⟨"Acme Golf", none, none, none, none, none, none⟩

/-- A deal carrying a code and an email offer. -/
def dealB : Deal :=
  ⟨"Birdie Co", some "Extra 30% off clearance", none, some "BIRDIE30",
   some "15% off with signup", none, none⟩

/-- An expiration parser that always infers the (early) expiry timestamp 3,
modelling `parse_expiration_date` succeeding on a dated promo text. -/
def pfSome3 : String → Option Nat := fun _ => some 3

/-- The history entry created for `dealA` at time 7. -/
def entryA7 : HistoryEntry :=
  ⟨7, 7, 1, "Acme Golf", "Save 20% off sitewide", none⟩

/-- The accumulator invariant shared by all Phase-2 code folds: every
collected code is at least 4 characters, off the Phase-2 stoplist, and
collected only once. -/
def popupInv (found : List String) : Prop :=
  (∀ c ∈ found, 4 ≤ c.length ∧ containsS popup_blacklist c = false) ∧
    found.Nodup

/-! ### Basic store lemmas -/

theorem containsS_iff {l : List String} {k : String} :
    containsS l k = true ↔ k ∈ l := by
  induction l with
  | nil => simp [containsS]
  | cons s rest ih =>
    simp only [containsS, Bool.or_eq_true, decide_eq_true_eq, ih, List.mem_cons]
    constructor
    · rintro (h | h)
      · exact Or.inl h.symm
      · exact Or.inr h
    · rintro (h | h)
      · exact Or.inl h.symm
      · exact Or.inr h

theorem lookupH_eq_none_iff {h : History} {k : String} :
    lookupH h k = none ↔ k ∉ h.map Prod.fst := by
  induction h with
  | nil => simp [lookupH]
  | cons kv rest ih =>
    by_cases hkv : kv.1 = k
    · simp [lookupH, hkv]
    · simp only [lookupH, if_neg hkv, ih, List.map_cons, List.mem_cons]
      constructor
      · intro hmem hc
        rcases hc with hc | hc
        · exact hkv hc.symm
        · exact hmem hc
      · intro hmem hc
        exact hmem (Or.inr hc)

theorem lookupH_mem {h : History} {k : String} {e : HistoryEntry}
    (hl : lookupH h k = some e) : (k, e) ∈ h := by
  induction h with
  | nil => simp [lookupH] at hl
  | cons kv rest ih =>
    by_cases hkv : kv.1 = k
    · simp only [lookupH, if_pos hkv, Option.some.injEq] at hl
      have : kv = (k, e) := by
        cases kv with
        | mk a b => simp_all
      simp [this]
    · simp only [lookupH, if_neg hkv] at hl
      exact List.mem_cons_of_mem _ (ih hl)

theorem mem_lookupH_of_nodup {h : History} {k : String} {e : HistoryEntry}
    (hnd : nodupKeys h) (hm : (k, e) ∈ h) : lookupH h k = some e := by
  induction h with
  | nil => simp at hm
  | cons kv rest ih =>
    rcases List.mem_cons.mp hm with hm | hm
    · simp [lookupH, ← hm]
    · have hk : k ∈ rest.map Prod.fst := List.mem_map.mpr ⟨(k, e), hm, rfl⟩
      have hnd' : kv.1 ∉ rest.map Prod.fst ∧ nodupKeys rest := by
        simpa [nodupKeys, List.nodup_cons] using hnd
      have hkv : kv.1 ≠ k := fun hcontra => hnd'.1 (hcontra ▸ hk)
      simp only [lookupH, if_neg hkv]
      exact ih hnd'.2 hm

theorem key_unique_of_nodup {h : History} {kv kv' : String × HistoryEntry}
    (hnd : nodupKeys h) (h1 : kv ∈ h) (h2 : kv' ∈ h) (hk : kv.1 = kv'.1) :
    kv = kv' := by
  have e1 : lookupH h kv.1 = some kv.2 := mem_lookupH_of_nodup hnd h1
  have e2 : lookupH h kv'.1 = some kv'.2 := mem_lookupH_of_nodup hnd h2
  rw [hk, e2] at e1
  cases kv
  cases kv'
  simp_all

theorem lookupH_append_of_none {h1 h2 : History} {k : String}
    (hn : lookupH h1 k = none) : lookupH (h1 ++ h2) k = lookupH h2 k := by
  induction h1 with
  | nil => simp
  | cons kv rest ih =>
    by_cases hkv : kv.1 = k
    · simp [lookupH, hkv] at hn
    · simp only [lookupH, if_neg hkv] at hn
      simpa [lookupH, if_neg hkv] using ih hn

theorem lookupH_mapReplace_self {k : String} {v : HistoryEntry} {h : History}
    (hs : (lookupH h k).isSome = true) :
    lookupH (h.map (fun kv => if kv.1 = k then (k, v) else kv)) k = some v := by
  induction h with
  | nil => simp [lookupH] at hs
  | cons kv rest ih =>
    by_cases hkv : kv.1 = k
    · simp [lookupH, hkv]
    · simp only [lookupH, if_neg hkv] at hs
      simpa [lookupH, hkv] using ih hs

theorem lookupH_mapReplace_ne {k k' : String} {v : HistoryEntry} (h : History)
    (hne : k' ≠ k) :
    lookupH (h.map (fun kv => if kv.1 = k then (k, v) else kv)) k' =
      lookupH h k' := by
  induction h with
  | nil => simp
  | cons kv rest ih =>
    rw [List.map_cons]
    by_cases hkv : kv.1 = k
    · rw [if_pos hkv]
      simp only [lookupH]
      rw [if_neg (show ¬(k, v).1 = k' from fun hc => hne hc.symm),
        if_neg (show ¬kv.1 = k' from fun hc => hne (hc ▸ hkv)), ih]
    · rw [if_neg hkv]
      simp only [lookupH]
      rw [ih]

theorem lookupH_append_single_ne {k k' : String} {v : HistoryEntry}
    (h : History) (hne : k' ≠ k) :
    lookupH (h ++ [(k, v)]) k' = lookupH h k' := by
  induction h with
  | nil =>
    simp only [List.nil_append, lookupH]
    rw [if_neg (fun hc => hne hc.symm)]
  | cons kv rest ih =>
    by_cases hkv' : kv.1 = k'
    · simp [lookupH, hkv']
    · simpa [lookupH, hkv'] using ih

theorem lookupH_hInsert_self (k : String) (v : HistoryEntry) (h : History) :
    lookupH (hInsert k v h) k = some v := by
  by_cases hs : (lookupH h k).isSome = true
  · simp only [hInsert, if_pos hs]
    exact lookupH_mapReplace_self hs
  · simp only [hInsert, if_neg hs]
    have hn : lookupH h k = none := by
      cases hl : lookupH h k with
      | none => rfl
      | some e => rw [hl] at hs; simp at hs
    rw [lookupH_append_of_none hn]
    simp [lookupH]

theorem lookupH_hInsert_ne {k k' : String} (v : HistoryEntry) (h : History)
    (hne : k' ≠ k) : lookupH (hInsert k v h) k' = lookupH h k' := by
  by_cases hs : (lookupH h k).isSome = true
  · simp only [hInsert, if_pos hs]
    exact lookupH_mapReplace_ne h hne
  · simp only [hInsert, if_neg hs]
    exact lookupH_append_single_ne h hne

theorem mem_hInsert_elim {k : String} {v : HistoryEntry} {h : History}
    {kv : String × HistoryEntry} (hm : kv ∈ hInsert k v h) :
    kv = (k, v) ∨ kv ∈ h := by
  by_cases hs : (lookupH h k).isSome = true
  · simp only [hInsert, if_pos hs] at hm
    rcases List.mem_map.mp hm with ⟨a, ha, hfa⟩
    by_cases hak : a.1 = k
    · rw [if_pos hak] at hfa
      exact Or.inl hfa.symm
    · rw [if_neg hak] at hfa
      exact Or.inr (hfa ▸ ha)
  · simp only [hInsert, if_neg hs, List.mem_append, List.mem_singleton] at hm
    rcases hm with hm | hm
    · exact Or.inr hm
    · exact Or.inl hm

theorem keys_mapReplace (k : String) (v : HistoryEntry) (h : History) :
    (h.map (fun kv => if kv.1 = k then (k, v) else kv)).map Prod.fst =
      h.map Prod.fst := by
  induction h with
  | nil => simp
  | cons kv rest ih =>
    by_cases hkv : kv.1 = k
    · simp [hkv, ih]
    · simp [hkv, ih]

theorem keys_hInsert_of_isSome {k : String} {v : HistoryEntry} {h : History}
    (hs : (lookupH h k).isSome = true) :
    (hInsert k v h).map Prod.fst = h.map Prod.fst := by
  simp only [hInsert, if_pos hs]
  exact keys_mapReplace k v h

theorem nodupKeys_hInsert {k : String} {v : HistoryEntry} {h : History}
    (hnd : nodupKeys h) : nodupKeys (hInsert k v h) := by
  by_cases hs : (lookupH h k).isSome = true
  · unfold nodupKeys
    rw [keys_hInsert_of_isSome hs]
    exact hnd
  · have hn : lookupH h k = none := by
      cases hl : lookupH h k with
      | none => rfl
      | some e => rw [hl] at hs; simp at hs
    have hk : k ∉ h.map Prod.fst := lookupH_eq_none_iff.mp hn
    simp only [hInsert, if_neg hs]
    unfold nodupKeys
    rw [List.map_append]
    simp only [List.map_cons, List.map_nil]
    rw [List.nodup_append]
    refine ⟨hnd, List.nodup_singleton k, ?_⟩
    intro a ha hb
    simp only [List.mem_singleton] at hb
    exact hk (hb ▸ ha)

theorem mem_eraseH {k : String} {h : History} {kv : String × HistoryEntry} :
    kv ∈ eraseH k h ↔ kv ∈ h ∧ kv.1 ≠ k := by
  simp [eraseH, List.mem_filter]

theorem mem_eraseAll {ks : List String} {h : History}
    {kv : String × HistoryEntry} :
    kv ∈ eraseAll ks h ↔ kv ∈ h ∧ kv.1 ∉ ks := by
  induction ks generalizing h with
  | nil => simp [eraseAll]
  | cons k ks ih =>
    have hstep : eraseAll (k :: ks) h = eraseAll ks (eraseH k h) := rfl
    rw [hstep, ih, mem_eraseH]
    simp only [List.mem_cons]
    constructor
    · rintro ⟨⟨hm, hne⟩, hnot⟩
      exact ⟨hm, by rintro (hc | hc); exact hne hc; exact hnot hc⟩
    · rintro ⟨hm, hnot⟩
      exact ⟨⟨hm, fun hc => hnot (Or.inl hc)⟩, fun hc => hnot (Or.inr hc)⟩

theorem eraseH_cons_self {k : String} {kv : String × HistoryEntry}
    {rest : History} (hkv : kv.1 = k) :
    eraseH k (kv :: rest) = eraseH k rest := by
  simp [eraseH, List.filter_cons, hkv]

theorem eraseH_cons_ne {k : String} {kv : String × HistoryEntry}
    {rest : History} (hkv : kv.1 ≠ k) :
    eraseH k (kv :: rest) = kv :: eraseH k rest := by
  simp [eraseH, List.filter_cons, hkv]

theorem lookupH_eraseH_ne {k k' : String} {h : History} (hne : k' ≠ k) :
    lookupH (eraseH k h) k' = lookupH h k' := by
  induction h with
  | nil => simp [eraseH, lookupH]
  | cons kv rest ih =>
    by_cases hkv : kv.1 = k
    · have hkvne : kv.1 ≠ k' := fun hc => hne (hc ▸ hkv)
      rw [eraseH_cons_self hkv, ih]
      simp [lookupH, hkvne]
    · rw [eraseH_cons_ne hkv]
      simp only [lookupH]
      rw [ih]

theorem lookupH_eraseAll_of_not_mem {ks : List String} {h : History}
    {k : String} (hk : k ∉ ks) :
    lookupH (eraseAll ks h) k = lookupH h k := by
  induction ks generalizing h with
  | nil => rfl
  | cons k' ks ih =>
    have hstep : eraseAll (k' :: ks) h = eraseAll ks (eraseH k' h) := rfl
    rw [hstep, ih (fun hc => hk (List.mem_cons_of_mem _ hc))]
    exact lookupH_eraseH_ne (fun hc => hk (hc ▸ List.mem_cons_self k' ks))

theorem nodupKeys_eraseAll {ks : List String} {h : History}
    (hnd : nodupKeys h) : nodupKeys (eraseAll ks h) := by
  induction ks generalizing h with
  | nil => exact hnd
  | cons k ks ih =>
    have hstep : eraseAll (k :: ks) h = eraseAll ks (eraseH k h) := rfl
    rw [hstep]
    refine ih ?_
    have hsub : List.Sublist (eraseH k h) h := List.filter_sublist h
    exact List.Nodup.sublist (List.Sublist.map Prod.fst hsub) hnd

/-! ### Lemmas about one upsert step -/

theorem processDeal_hist_eq (pf : String → Option Nat) (now : Nat) (d : Deal)
    (h : History) :
    (processDeal pf now d h).hist =
      hInsert (get_deal_key d) (procEntry pf now d h) h := by
  cases hl : lookupH h (get_deal_key d) with
  | some e =>
    cases hexp : e.expires with
    | some t => simp [processDeal, procEntry, hl, hexp]
    | none => simp [processDeal, procEntry, hl, hexp]
  | none => simp [processDeal, procEntry, hl]

theorem processDeal_lookup_key (pf : String → Option Nat) (now : Nat)
    (d : Deal) (h : History) :
    lookupH (processDeal pf now d h).hist (get_deal_key d) =
      some (procEntry pf now d h) := by
  rw [processDeal_hist_eq]
  exact lookupH_hInsert_self _ _ _

theorem processDeal_lookup_ne (pf : String → Option Nat) (now : Nat)
    (d : Deal) (h : History) {k : String} (hne : k ≠ get_deal_key d) :
    lookupH (processDeal pf now d h).hist k = lookupH h k := by
  rw [processDeal_hist_eq]
  exact lookupH_hInsert_ne _ _ hne

theorem processDeal_nodupKeys (pf : String → Option Nat) (now : Nat)
    (d : Deal) {h : History} (hnd : nodupKeys h) :
    nodupKeys (processDeal pf now d h).hist := by
  rw [processDeal_hist_eq]
  exact nodupKeys_hInsert hnd

theorem procEntry_last_seen (pf : String → Option Nat) (now : Nat) (d : Deal)
    (h : History) : (procEntry pf now d h).last_seen = now := by
  unfold procEntry
  cases lookupH h (get_deal_key d) <;> rfl

theorem procEntry_times_seen (pf : String → Option Nat) (now : Nat) (d : Deal)
    (h : History) :
    (procEntry pf now d h).times_seen = timesSeenOf h (get_deal_key d) + 1 := by
  unfold procEntry timesSeenOf
  cases lookupH h (get_deal_key d) <;> rfl

theorem processDeal_timesSeen_key (pf : String → Option Nat) (now : Nat)
    (d : Deal) (h : History) :
    timesSeenOf (processDeal pf now d h).hist (get_deal_key d) =
      timesSeenOf h (get_deal_key d) + 1 := by
  unfold timesSeenOf
  rw [processDeal_lookup_key]
  exact procEntry_times_seen pf now d h

theorem processDeal_timesSeen_ne (pf : String → Option Nat) (now : Nat)
    (d : Deal) (h : History) {k : String} (hne : k ≠ get_deal_key d) :
    timesSeenOf (processDeal pf now d h).hist k = timesSeenOf h k := by
  unfold timesSeenOf
  rw [processDeal_lookup_ne pf now d h hne]

theorem processDeal_fresh_eq (pf : String → Option Nat) (now : Nat) (d : Deal)
    (h : History) :
    (processDeal pf now d h).fresh =
      if procIsExpired pf now d h then none else some (procFresh pf now d h) := by
  cases hl : lookupH h (get_deal_key d) with
  | some e =>
    cases hexp : e.expires with
    | some t =>
      simp [processDeal, procEntry, procIsExpired, procFresh, procFirstSeen, hl, hexp]
    | none =>
      simp [processDeal, procEntry, procIsExpired, procFresh, procFirstSeen, hl, hexp]
  | none =>
    simp [processDeal, procEntry, procIsExpired, procFresh, procFirstSeen, hl]

theorem processDeal_fresh_not_expired (pf : String → Option Nat) (now : Nat)
    (d : Deal) (h : History) {fd : FreshDeal}
    (hf : (processDeal pf now d h).fresh = some fd) :
    fd.is_expired = false := by
  rw [processDeal_fresh_eq] at hf
  by_cases hX : procIsExpired pf now d h = true
  · rw [if_pos hX] at hf
    exact absurd hf (by simp)
  · rw [if_neg hX] at hf
    injection hf with hfd
    rw [← hfd]
    simpa using hX

theorem processDeal_inferRan (pf : String → Option Nat) (now : Nat) (d : Deal)
    (h : History) :
    (processDeal pf now d h).inferRan =
      (entryExpires h (get_deal_key d)).isNone := by
  cases hl : lookupH h (get_deal_key d) with
  | some e => simp [processDeal, entryExpires, hl]
  | none => simp [processDeal, entryExpires, hl]

theorem processDeal_entryExpires (pf : String → Option Nat) (now : Nat)
    (d : Deal) (h : History) :
    entryExpires (processDeal pf now d h).hist (get_deal_key d) =
      (if (entryExpires h (get_deal_key d)).isNone then pf (dealPromoText d)
       else entryExpires h (get_deal_key d)) := by
  unfold entryExpires
  rw [processDeal_lookup_key]
  unfold procEntry
  cases hl : lookupH h (get_deal_key d) with
  | some e => simp
  | none => simp

/-! ### Lemmas about the upsert phase -/

theorem upsertAll_nodupKeys (pf : String → Option Nat) (now : Nat)
    (deals : List Deal) {h : History} (hnd : nodupKeys h) :
    nodupKeys (upsertAll pf now deals h).1 := by
  induction deals generalizing h with
  | nil => exact hnd
  | cons d ds ih => exact ih (processDeal_nodupKeys pf now d hnd)

theorem upsertAll_timesSeen (pf : String → Option Nat) (now : Nat)
    (deals : List Deal) (h : History) (k : String) :
    timesSeenOf (upsertAll pf now deals h).1 k =
      timesSeenOf h k + (deals.filter (fun d => get_deal_key d = k)).length := by
  induction deals generalizing h with
  | nil => simp [upsertAll]
  | cons d ds ih =>
    show timesSeenOf (upsertAll pf now ds (processDeal pf now d h).hist).1 k = _
    rw [ih]
    rw [List.filter_cons]
    by_cases hk : get_deal_key d = k
    · have h1 : timesSeenOf (processDeal pf now d h).hist k = timesSeenOf h k + 1 := by
        rw [← hk]
        exact processDeal_timesSeen_key pf now d h
      rw [h1]
      simp [hk]
      omega
    · have h1 : timesSeenOf (processDeal pf now d h).hist k = timesSeenOf h k :=
        processDeal_timesSeen_ne pf now d h (fun hc => hk hc.symm)
      rw [h1]
      simp [hk]

theorem upsertAll_fresh_not_expired (pf : String → Option Nat) (now : Nat)
    (deals : List Deal) (h : History) :
    ∀ fd ∈ (upsertAll pf now deals h).2, fd.is_expired = false := by
  induction deals generalizing h with
  | nil => simp [upsertAll]
  | cons d ds ih =>
    intro fd hfd
    show fd.is_expired = false
    have hstep :
        (upsertAll pf now (d :: ds) h).2 =
          (processDeal pf now d h).fresh.toList ++
            (upsertAll pf now ds (processDeal pf now d h).hist).2 := rfl
    rw [hstep] at hfd
    rcases List.mem_append.mp hfd with hm | hm
    · cases hfr : (processDeal pf now d h).fresh with
      | none => simp [hfr] at hm
      | some fd' =>
        simp only [hfr, Option.toList_some, List.mem_singleton] at hm
        rw [hm]
        exact processDeal_fresh_not_expired pf now d h hfr
    · exact ih _ fd hm

theorem upsertAll_lookup_preserve_lastnow (pf : String → Option Nat)
    (now : Nat) (deals : List Deal) (h : History) (k : String)
    (hk : ∃ e, lookupH h k = some e ∧ e.last_seen = now) :
    ∃ e, lookupH (upsertAll pf now deals h).1 k = some e ∧ e.last_seen = now := by
  induction deals generalizing h with
  | nil => exact hk
  | cons d ds ih =>
    refine ih (processDeal pf now d h).hist ?_
    by_cases hkd : k = get_deal_key d
    · refine ⟨procEntry pf now d h, ?_, procEntry_last_seen pf now d h⟩
      rw [hkd]
      exact processDeal_lookup_key pf now d h
    · rcases hk with ⟨e, he, hlast⟩
      exact ⟨e, by rw [processDeal_lookup_ne pf now d h hkd]; exact he, hlast⟩

theorem upsertAll_lookup_of_mem (pf : String → Option Nat) (now : Nat)
    (deals : List Deal) (h : History) {d : Deal} (hd : d ∈ deals) :
    ∃ e, lookupH (upsertAll pf now deals h).1 (get_deal_key d) = some e ∧
      e.last_seen = now := by
  induction deals generalizing h with
  | nil => simp at hd
  | cons d' ds ih =>
    rcases List.mem_cons.mp hd with hd | hd
    · refine upsertAll_lookup_preserve_lastnow pf now ds _ _ ?_
      refine ⟨procEntry pf now d' h, ?_, procEntry_last_seen pf now d' h⟩
      rw [hd]
      exact processDeal_lookup_key pf now d' h
    · exact ih _ hd

/-! ### Lemmas about a full cycle update -/

theorem evictCond_iff {seen : List String} {now : Nat}
    {kv : String × HistoryEntry} :
    evictCond seen now kv = true ↔
      kv.1 ∉ seen ∧ DEAL_EXPIRE_HOURS * 3600 < now - kv.2.last_seen := by
  unfold evictCond
  rw [Bool.and_eq_true, Bool.not_eq_true', decide_eq_true_eq]
  constructor
  · rintro ⟨h1, h2⟩
    refine ⟨fun hc => ?_, h2⟩
    rw [containsS_iff.mpr hc] at h1
    exact absurd h1 (by simp)
  · rintro ⟨h1, h2⟩
    refine ⟨?_, h2⟩
    cases hc : containsS seen kv.1
    · rfl
    · exact absurd (containsS_iff.mp hc) h1

theorem mem_expiredKeysOf {seen : List String} {now : Nat} {h : History}
    {k : String} :
    k ∈ expiredKeysOf seen now h ↔
      ∃ kv, kv ∈ h ∧ kv.1 = k ∧ evictCond seen now kv = true := by
  unfold expiredKeysOf
  constructor
  · intro hm
    rcases List.mem_map.mp hm with ⟨kv, hkv, hk⟩
    rcases List.mem_filter.mp hkv with ⟨hmem, hcond⟩
    exact ⟨kv, hmem, hk, hcond⟩
  · rintro ⟨kv, hmem, hk, hcond⟩
    exact List.mem_map.mpr ⟨kv, List.mem_filter.mpr ⟨hmem, hcond⟩, hk⟩

theorem expiredKeysOf_not_seen {seen : List String} {now : Nat} {h : History}
    {k : String} (hm : k ∈ expiredKeysOf seen now h) : k ∉ seen := by
  rcases mem_expiredKeysOf.mp hm with ⟨kv, _, hk, hcond⟩
  rcases evictCond_iff.mp hcond with ⟨hns, _⟩
  exact hk ▸ hns

theorem update_lookup_of_seen (pf : String → Option Nat) (now : Nat)
    (deals : List Deal) (h : History) {d : Deal} (hd : d ∈ deals) :
    lookupH (update_deal_history pf now deals h).1 (get_deal_key d) =
      lookupH (upsertAll pf now deals h).1 (get_deal_key d) := by
  unfold update_deal_history
  refine lookupH_eraseAll_of_not_mem (fun hm => ?_)
  exact expiredKeysOf_not_seen hm (List.mem_map.mpr ⟨d, hd, rfl⟩)

theorem update_nodupKeys (pf : String → Option Nat) (now : Nat)
    (deals : List Deal) {h : History} (hnd : nodupKeys h) :
    nodupKeys (update_deal_history pf now deals h).1 :=
  nodupKeys_eraseAll (upsertAll_nodupKeys pf now deals hnd)

theorem update_lookup_preserve_lastnow (pf : String → Option Nat) (now : Nat)
    (deals : List Deal) {h : History} (k : String) (hnd : nodupKeys h)
    (hk : ∃ e, lookupH h k = some e ∧ e.last_seen = now) :
    ∃ e, lookupH (update_deal_history pf now deals h).1 k = some e ∧
      e.last_seen = now := by
  rcases upsertAll_lookup_preserve_lastnow pf now deals h k hk with ⟨e1, he1, hl1⟩
  have hnd1 : nodupKeys (upsertAll pf now deals h).1 :=
    upsertAll_nodupKeys pf now deals hnd
  have hnotmem :
      k ∉ expiredKeysOf (deals.map get_deal_key) now (upsertAll pf now deals h).1 := by
    intro hm
    rcases mem_expiredKeysOf.mp hm with ⟨kv, hkv, hkk, hcond⟩
    have hke : (k, e1) ∈ (upsertAll pf now deals h).1 := lookupH_mem he1
    have : kv = (k, e1) := key_unique_of_nodup hnd1 hkv hke (by rw [hkk])
    rcases evictCond_iff.mp hcond with ⟨_, hgt⟩
    rw [this] at hgt
    simp only [hl1] at hgt
    omega
  unfold update_deal_history
  exact ⟨e1, by rw [lookupH_eraseAll_of_not_mem hnotmem]; exact he1, hl1⟩

theorem update_lookup_isSome_of_mem (pf : String → Option Nat) (now : Nat)
    (deals : List Deal) {h : History} {d : Deal} (hd : d ∈ deals) :
    (lookupH (update_deal_history pf now deals h).1 (get_deal_key d)).isSome =
      true := by
  rw [update_lookup_of_seen pf now deals h hd]
  rcases upsertAll_lookup_of_mem pf now deals h hd with ⟨e, he, _⟩
  rw [he]
  rfl

/-! ### The timestamp invariant -/

theorem procEntry_first_le_last (pf : String → Option Nat) {t : Nat}
    (now : Nat) (d : Deal) {h : History} (hinv : histInv t h) (hle : t ≤ now) :
    (procEntry pf now d h).first_seen ≤ (procEntry pf now d h).last_seen ∧
      (procEntry pf now d h).last_seen ≤ now := by
  unfold procEntry
  cases hl : lookupH h (get_deal_key d) with
  | some e =>
    have hm : (get_deal_key d, e) ∈ h := lookupH_mem hl
    have := hinv _ hm
    exact ⟨le_trans this.1 (le_trans this.2 hle), le_refl now⟩
  | none => exact ⟨le_refl now, le_refl now⟩

theorem processDeal_histInv (pf : String → Option Nat) {t : Nat} (now : Nat)
    (d : Deal) {h : History} (hinv : histInv t h) (hle : t ≤ now) :
    histInv now (processDeal pf now d h).hist := by
  intro kv hm
  rw [processDeal_hist_eq] at hm
  rcases mem_hInsert_elim hm with hm | hm
  · rw [hm]
    exact procEntry_first_le_last pf now d hinv hle
  · have := hinv _ hm
    exact ⟨this.1, le_trans this.2 hle⟩

theorem upsertAll_histInv (pf : String → Option Nat) {t : Nat} (now : Nat)
    (deals : List Deal) {h : History} (hinv : histInv t h) (hle : t ≤ now) :
    histInv now (upsertAll pf now deals h).1 := by
  induction deals generalizing h t with
  | nil => exact fun kv hm => ⟨(hinv kv hm).1, le_trans (hinv kv hm).2 hle⟩
  | cons d ds ih =>
    exact ih (t := now) (processDeal_histInv pf now d hinv hle) (le_refl now)

theorem update_histInv (pf : String → Option Nat) {t : Nat} (now : Nat)
    (deals : List Deal) {h : History} (hinv : histInv t h) (hle : t ≤ now) :
    histInv now (update_deal_history pf now deals h).1 := by
  intro kv hm
  have hm1 : kv ∈ (upsertAll pf now deals h).1 := (mem_eraseAll.mp hm).1
  exact upsertAll_histInv pf now deals hinv hle kv hm1

theorem reachable_histInv {t : Nat} {h : History} (hr : ReachableHist t h) :
    histInv t h := by
  induction hr with
  | init => intro kv hm; simp at hm
  | step pf deals t now h _ hle ih => exact update_histInv pf now deals ih hle

/-! ### Lemmas about candidate selection -/

theorem selectBest_spec {cands : List Candidate} {c : Candidate}
    (hsel : selectBest cands = some c) :
    10 < c.score ∧ c ∈ cands ∧ ∀ c' ∈ cands, c'.score ≤ c.score := by
  unfold selectBest at hsel
  cases hs : List.insertionSort candOrder cands with
  | nil => rw [hs] at hsel; simp at hsel
  | cons c0 rest =>
    rw [hs] at hsel
    dsimp only at hsel
    by_cases hc : c0.score > 10
    · rw [if_pos hc] at hsel
      injection hsel with hc0
      subst hc0
      refine ⟨hc, ?_, ?_⟩
      · have : c0 ∈ List.insertionSort candOrder cands := by
          rw [hs]; exact List.mem_cons_self c0 rest
        exact (List.mem_insertionSort candOrder).mp this
      · intro c' hc'
        have hmem : c' ∈ List.insertionSort candOrder cands :=
          (List.mem_insertionSort candOrder).mpr hc'
        rw [hs] at hmem
        rcases List.mem_cons.mp hmem with hm | hm
        · rw [hm]
        · have hsorted : List.Sorted candOrder (List.insertionSort candOrder cands) :=
            List.sorted_insertionSort candOrder cands
          rw [hs] at hsorted
          exact List.rel_of_sorted_cons hsorted c' hm
    · rw [if_neg hc] at hsel
      simp at hsel

theorem collectCandidates_mem {ann ban txt : List String} {c : Candidate}
    (hm : c ∈ collectCandidates ann ban txt) :
    zoneOk c.zone c.text = true ∧ c.score = zoneScore c.zone c.text := by
  unfold collectCandidates at hm
  rcases List.mem_append.mp hm with hm | hm
  · rcases List.mem_append.mp hm with hm | hm
    · rcases List.mem_map.mp hm with ⟨t, ht, hc⟩
      rcases List.mem_filter.mp ht with ⟨_, hok⟩
      rw [← hc]
      exact ⟨hok, rfl⟩
    · rcases List.mem_map.mp hm with ⟨t, ht, hc⟩
      rcases List.mem_filter.mp ht with ⟨_, hok⟩
      rw [← hc]
      exact ⟨hok, rfl⟩
  · rcases List.mem_map.mp hm with ⟨t, ht, hc⟩
    rcases List.mem_filter.mp ht with ⟨_, hok⟩
    rw [← hc]
    exact ⟨hok, rfl⟩

theorem zoneScore_eq (z : Zone) (t : String) :
    zoneScore z t = score_promo_text t + (if z = Zone.announcement then 20 else 0) := by
  cases z <;> simp [zoneScore]

/-! ### Lemmas about Phase-2 code mining -/

theorem popupScriptAccept_props {found : List String} {code : String}
    (ha : popupScriptAccept found code = true) :
    containsS popup_blacklist code = false ∧ 4 ≤ code.length ∧
      code.length ≤ 20 ∧ code ∉ found := by
  unfold popupScriptAccept at ha
  simp only [Bool.and_eq_true, Bool.not_eq_true', decide_eq_true_eq] at ha
  refine ⟨ha.1.1.1.1.1, ha.1.1.1.1.2, ha.1.1.1.2, ?_⟩
  intro hc
  rw [containsS_iff.mpr hc] at ha
  simp at ha

theorem popupDataAccept_props {found : List String} {code : String}
    (ha : popupDataAccept found code = true) :
    containsS popup_blacklist code = false ∧ 4 ≤ code.length ∧ code ∉ found := by
  unfold popupDataAccept at ha
  simp only [Bool.and_eq_true, Bool.not_eq_true', decide_eq_true_eq] at ha
  refine ⟨ha.1.1.2, ha.1.2, ?_⟩
  intro hc
  rw [containsS_iff.mpr hc] at ha
  simp at ha

theorem popupInv_extend {found : List String} {code : String}
    (hinv : popupInv found) (hbl : containsS popup_blacklist code = false)
    (hlen : 4 ≤ code.length) (hnm : code ∉ found) :
    popupInv (found ++ [code]) := by
  constructor
  · intro c hc
    rcases List.mem_append.mp hc with hc | hc
    · exact hinv.1 c hc
    · rw [List.mem_singleton.mp hc]
      exact ⟨hlen, hbl⟩
  · rw [List.nodup_append]
    exact ⟨hinv.2, List.nodup_singleton code,
      fun a ha hb => (List.mem_singleton.mp hb ▸ hnm) ha⟩

theorem popupScriptFold_inv (tokens : List String) {init : List String}
    (hinit : popupInv init) : popupInv (popupScriptFold tokens init) := by
  induction tokens generalizing init with
  | nil => exact hinit
  | cons t ts ih =>
    show popupInv (popupScriptFold ts
      (if popupScriptAccept init (pyUpper t) then init ++ [pyUpper t] else init))
    by_cases ha : popupScriptAccept init (pyUpper t) = true
    · rw [if_pos ha]
      rcases popupScriptAccept_props ha with ⟨hbl, hlen, _, hnm⟩
      exact ih (popupInv_extend hinit hbl hlen hnm)
    · rw [if_neg ha]
      exact ih hinit

theorem popupDataFold_inv (attrs : List String) {init : List String}
    (hinit : popupInv init) : popupInv (popupDataFold attrs init) := by
  induction attrs generalizing init with
  | nil => exact hinit
  | cons t ts ih =>
    show popupInv (popupDataFold ts
      (if popupDataAccept init (pyUpper t) then init ++ [pyUpper t] else init))
    by_cases ha : popupDataAccept init (pyUpper t) = true
    · rw [if_pos ha]
      rcases popupDataAccept_props ha with ⟨hbl, hlen, hnm⟩
      exact ih (popupInv_extend hinit hbl hlen hnm)
    · rw [if_neg ha]
      exact ih hinit

/-- Preservation of a now-fresh entry (and of key uniqueness) through an
optional history update, as `save_data` performs for the clearance and
impact batches. -/
theorem update_opt_preserve (pf : String → Option Nat) (now : Nat)
    (ds : List Deal) (h : History) (k : String) (hnd : nodupKeys h)
    (hk : ∃ e, lookupH h k = some e ∧ e.last_seen = now) :
    (∃ e, lookupH (if ds ≠ [] then update_deal_history pf now ds h
        else (h, ([] : List FreshDeal))).1 k = some e ∧ e.last_seen = now) ∧
      nodupKeys (if ds ≠ [] then update_deal_history pf now ds h
        else (h, ([] : List FreshDeal))).1 := by
  by_cases hc : ds ≠ []
  · simp only [if_pos hc]
    exact ⟨update_lookup_preserve_lastnow pf now ds k hnd hk,
      update_nodupKeys pf now ds hnd⟩
  · simp only [if_neg hc]
    exact ⟨hk, hnd⟩

/-! ### The claims -/

/-- C1: processing a deal whose key already exists in the store sets that
entry's `last_seen` to `now`, increments its `times_seen` by exactly 1 and
leaves `first_seen` unchanged (the record update touches no other
timestamp field); processing a deal whose key is absent creates an entry
with `first_seen = last_seen = now`, `times_seen = 1` and the stored
60-character promo preview. -/
theorem c1_upsert (pf : String → Option Nat) (now : Nat) (d : Deal)
    (h : History) :
    (∀ e, lookupH h (get_deal_key d) = some e →
       lookupH (processDeal pf now d h).hist (get_deal_key d) =
         some { e with
                last_seen := now,
                times_seen := e.times_seen + 1,
                expires := if e.expires.isNone then pf (dealPromoText d)
                  else e.expires }) ∧
    (lookupH h (get_deal_key d) = none →
       lookupH (processDeal pf now d h).hist (get_deal_key d) =
         some { first_seen := now, last_seen := now, times_seen := 1,
                brand := d.brand, promo_preview := (dealPromoText d).take 60,
                expires := pf (dealPromoText d) }) := by
  constructor
  · intro e he
    rw [processDeal_lookup_key]
    unfold procEntry
    rw [he]
  · intro he
    rw [processDeal_lookup_key]
    unfold procEntry
    rw [he]

set_option maxRecDepth 100000 in
/-- Witness for C1: a fresh key at time 7, then the same key again at
time 9. -/
theorem c1_upsert_witness :
    lookupH (processDeal pfNone 9 dealA (processDeal pfNone 7 dealA []).hist).hist
        (get_deal_key dealA) =
      some { entryA7 with
             last_seen := 9,
             times_seen := entryA7.times_seen + 1,
             expires := if entryA7.expires.isNone then pfNone (dealPromoText dealA)
               else entryA7.expires } :=
  (c1_upsert pfNone 9 dealA (processDeal pfNone 7 dealA []).hist).1 entryA7
    (by decide)

/-- C2: after the upsert phase, the eviction pass deletes exactly the
entries whose key is absent from the cycle's seen-key set and whose
`now - last_seen` strictly exceeds 24 hours (86400 seconds); every other
entry is retained, the eviction condition reads only the key and
`last_seen` (in particular it is independent of the stored expiry), and a
key observed anywhere in the current cycle keeps exactly its post-upsert
entry. -/
theorem c2_eviction (pf : String → Option Nat) (now : Nat) (deals : List Deal)
    (h : History) (hnd : nodupKeys h) :
    (∀ kv : String × HistoryEntry,
       kv ∈ (update_deal_history pf now deals h).1 ↔
         kv ∈ (upsertAll pf now deals h).1 ∧
           ¬(kv.1 ∉ deals.map get_deal_key ∧
             DEAL_EXPIRE_HOURS * 3600 < now - kv.2.last_seen)) ∧
    (∀ d ∈ deals,
       lookupH (update_deal_history pf now deals h).1 (get_deal_key d) =
         lookupH (upsertAll pf now deals h).1 (get_deal_key d)) ∧
    (∀ kv kv' : String × HistoryEntry, kv.1 = kv'.1 →
       kv.2.last_seen = kv'.2.last_seen →
       evictCond (deals.map get_deal_key) now kv =
         evictCond (deals.map get_deal_key) now kv') := by
  have hnd1 : nodupKeys (upsertAll pf now deals h).1 :=
    upsertAll_nodupKeys pf now deals hnd
  refine ⟨?_, ?_, ?_⟩
  · intro kv
    show kv ∈ eraseAll (expiredKeysOf (deals.map get_deal_key) now
        (upsertAll pf now deals h).1) (upsertAll pf now deals h).1 ↔ _
    rw [mem_eraseAll]
    constructor
    · rintro ⟨hmem, hnk⟩
      refine ⟨hmem, fun hcond => hnk ?_⟩
      exact mem_expiredKeysOf.mpr ⟨kv, hmem, rfl, evictCond_iff.mpr hcond⟩
    · rintro ⟨hmem, hncond⟩
      refine ⟨hmem, fun hk => ?_⟩
      rcases mem_expiredKeysOf.mp hk with ⟨kv', hkv', hk1, hcond⟩
      have hkvkv : kv' = kv := key_unique_of_nodup hnd1 hkv' hmem (by rw [hk1])
      exact hncond (evictCond_iff.mp (hkvkv ▸ hcond))
  · intro d hd
    exact update_lookup_of_seen pf now deals h hd
  · intro kv kv' h1 h2
    unfold evictCond
    rw [h1, h2]

set_option maxRecDepth 100000 in
/-- Witness for C2: the membership characterisation instantiated for a
store holding one just-seen deal. -/
theorem c2_eviction_witness :
    (get_deal_key dealA, entryA7) ∈ (update_deal_history pfNone 7 [dealA] []).1 ↔
      (get_deal_key dealA, entryA7) ∈ (upsertAll pfNone 7 [dealA] []).1 ∧
        ¬((get_deal_key dealA, entryA7).1 ∉ [dealA].map get_deal_key ∧
          DEAL_EXPIRE_HOURS * 3600 <
            7 - (get_deal_key dealA, entryA7).2.last_seen) :=
  (c2_eviction pfNone 7 [dealA] [] (by simp [nodupKeys])).1
    (get_deal_key dealA, entryA7)

/-- C3: in every history store reachable by cycle updates with
non-decreasing cycle times, every entry satisfies
`first_seen ≤ last_seen`. -/
theorem c3_last_ge_first {t : Nat} {h : History} (hr : ReachableHist t h) :
    ∀ kv ∈ h, kv.2.first_seen ≤ kv.2.last_seen :=
  fun kv hm => (reachable_histInv hr kv hm).1

set_option maxRecDepth 100000 in
/-- Witness for C3: a store reached by one cycle at time 5, with its one
entry checked. -/
theorem c3_last_ge_first_witness :
    ReachableHist 5 (update_deal_history pfNone 5 [dealA] []).1 ∧
      ((get_deal_key dealA,
          (⟨5, 5, 1, "Acme Golf", "Save 20% off sitewide", none⟩ : HistoryEntry)) :
            String × HistoryEntry).2.first_seen ≤
        (⟨5, 5, 1, "Acme Golf", "Save 20% off sitewide", none⟩ : HistoryEntry).last_seen :=
  ⟨ReachableHist.step pfNone [dealA] 0 5 [] ReachableHist.init (by omega),
   c3_last_ge_first
     (ReachableHist.step pfNone [dealA] 0 5 [] ReachableHist.init (by omega))
     (get_deal_key dealA, ⟨5, 5, 1, "Acme Golf", "Save 20% off sitewide", none⟩)
     (by decide)⟩

set_option maxRecDepth 100000 in
/-- C4 counterexample: feeding the same deal twice in one cycle performs
two upserts, leaving `times_seen = 2`, not 1 — there is no per-cycle
dedup before the store is touched. -/
theorem c4_counterexample :
    timesSeenOf (update_deal_history pfNone 0 [dealA, dealA] []).1
        (get_deal_key dealA) = 2 ∧
      ¬timesSeenOf (update_deal_history pfNone 0 [dealA, dealA] []).1
          (get_deal_key dealA) = 1 := by
  refine ⟨by decide, by decide⟩

/-- C4 amended: the upsert phase performs one upsert per occurrence of a
key in the cycle's deal list, so `times_seen` grows by the number of
occurrences of that key (and, when the key occurs at least once, the same
holds across the whole cycle update since a seen key survives
eviction). -/
theorem c4_times_seen (pf : String → Option Nat) (now : Nat)
    (deals : List Deal) (h : History) (k : String) :
    (timesSeenOf (upsertAll pf now deals h).1 k =
       timesSeenOf h k +
         (deals.filter (fun d => get_deal_key d = k)).length) ∧
    (0 < (deals.filter (fun d => get_deal_key d = k)).length →
       timesSeenOf (update_deal_history pf now deals h).1 k =
         timesSeenOf h k +
           (deals.filter (fun d => get_deal_key d = k)).length) := by
  refine ⟨upsertAll_timesSeen pf now deals h k, fun hpos => ?_⟩
  have hne : deals.filter (fun d => get_deal_key d = k) ≠ [] := by
    intro hc
    rw [hc] at hpos
    simp at hpos
  obtain ⟨d0, hd0⟩ := List.exists_mem_of_ne_nil _ hne
  have hd0' := List.mem_filter.mp hd0
  have hk0 : get_deal_key d0 = k := by simpa using hd0'.2
  have hstep : timesSeenOf (update_deal_history pf now deals h).1 k =
      timesSeenOf (upsertAll pf now deals h).1 k := by
    unfold timesSeenOf
    rw [← hk0, update_lookup_of_seen pf now deals h hd0'.1]
  rw [hstep]
  exact upsertAll_timesSeen pf now deals h k

set_option maxRecDepth 100000 in
/-- Witness for C4: one occurrence of a key in a cycle bumps the counter
by one across the whole cycle update. -/
theorem c4_times_seen_witness :
    timesSeenOf (update_deal_history pfNone 0 [dealA] []).1 (get_deal_key dealA) =
      timesSeenOf [] (get_deal_key dealA) +
        ([dealA].filter (fun d => get_deal_key d = get_deal_key dealA)).length :=
  (c4_times_seen pfNone 0 [dealA] [] (get_deal_key dealA)).2 (by decide)

/-- C5: no fresh deal with `is_expired = true` appears in the snapshot's
`promos` array; every `codes` entry is derived from a (non-expired)
member of that array; and the history entry of every processed promo —
expired or not — is still present in the persisted store. -/
theorem c5_expired_excluded (pf : String → Option Nat) (now : Nat)
    (promos clearance impact : List Deal) (h : History) (idx : Nat)
    (hnd : nodupKeys h) :
    (∀ fd ∈ (save_data pf now promos clearance impact h idx).1.promos,
       fd.is_expired = false) ∧
    (∀ ce ∈ (save_data pf now promos clearance impact h idx).1.codes,
       ∃ fd ∈ (save_data pf now promos clearance impact h idx).1.promos,
         fd.is_expired = false ∧ ce = mkCodeEntry fd) ∧
    (∀ d ∈ promos, truthyS d.promo = true →
       (lookupH (save_data pf now promos clearance impact h idx).2
           (get_deal_key d)).isSome = true) := by
  refine ⟨?_, ?_, ?_⟩
  · intro fd hm
    simp only [save_data] at hm
    exact upsertAll_fresh_not_expired pf now
      (promos.filter (fun p => truthyS p.promo)) h fd hm
  · intro ce hce
    simp only [save_data] at hce
    rcases List.mem_map.mp hce with ⟨fd, hf, hc⟩
    rcases List.mem_filter.mp hf with ⟨hfd, _⟩
    refine ⟨fd, ?_, ?_, hc.symm⟩
    · simp only [save_data]
      exact hfd
    · exact upsertAll_fresh_not_expired pf now
        (promos.filter (fun p => truthyS p.promo)) h fd hfd
  · intro d hd htr
    simp only [save_data]
    have hdA : d ∈ promos.filter (fun p => truthyS p.promo) :=
      List.mem_filter.mpr ⟨hd, htr⟩
    have base : ∃ e,
        lookupH (update_deal_history pf now
            (promos.filter (fun p => truthyS p.promo)) h).1 (get_deal_key d) =
          some e ∧ e.last_seen = now := by
      rw [update_lookup_of_seen pf now _ h hdA]
      exact upsertAll_lookup_of_mem pf now _ h hdA
    have n1 : nodupKeys (update_deal_history pf now
        (promos.filter (fun p => truthyS p.promo)) h).1 :=
      update_nodupKeys pf now _ hnd
    have s2 := update_opt_preserve pf now clearance _ (get_deal_key d) n1 base
    have s3 := update_opt_preserve pf now impact _ (get_deal_key d) s2.2 s2.1
    rcases s3.1 with ⟨e, he, _⟩
    rw [he]
    rfl

set_option maxRecDepth 100000 in
/-- Witness for C5: a promo whose inferred expiry (timestamp 3) has
passed by cycle time 100 is excluded from the emitted arrays yet its
history entry is retained. -/
theorem c5_expired_excluded_witness :
    (lookupH (save_data pfSome3 100 [dealA] [] [] [] 0).2
        (get_deal_key dealA)).isSome = true :=
  (c5_expired_excluded pfSome3 100 [dealA] [] [] [] 0
      (by simp [nodupKeys])).2.2 dealA (by decide) (by decide)

set_option maxRecDepth 100000 in
/-- C6 counterexample: for a deal whose promo text yields no expiration
(`parse_expiration_date("")` is `None`, `server.py` line 81), inference
is invoked again in the second cycle observing the same key — it does
not run at most once per key. -/
theorem c6_counterexample :
    (processDeal pfNone 0 dealNoText []).inferRan = true ∧
      (processDeal pfNone 3600 dealNoText
          (processDeal pfNone 0 dealNoText []).hist).inferRan = true := by
  refine ⟨by decide, by decide⟩

/-- C6 amended: expiration inference runs in a cycle exactly when the
entry's stored expiry is unset (or the key is new) at that point, and in
the next cycle observing the same key it runs again exactly when the
previous attempt also returned no expiry — so it runs once per key only
when an attempt succeeds, and repeats while attempts return null. -/
theorem c6_inference_guard (pf : String → Option Nat) (t1 t2 : Nat) (d : Deal)
    (h : History) :
    ((processDeal pf t1 d h).inferRan =
        (entryExpires h (get_deal_key d)).isNone) ∧
    ((processDeal pf t2 d (processDeal pf t1 d h).hist).inferRan =
        ((entryExpires h (get_deal_key d)).isNone &&
          (pf (dealPromoText d)).isNone)) := by
  refine ⟨processDeal_inferRan pf t1 d h, ?_⟩
  rw [processDeal_inferRan, processDeal_entryExpires]
  by_cases hn : (entryExpires h (get_deal_key d)).isNone = true
  · rw [if_pos hn, hn, Bool.true_and]
  · have hf : (entryExpires h (get_deal_key d)).isNone = false :=
      Bool.eq_false_iff.mpr hn
    rw [if_neg hn, hf, Bool.false_and]

set_option maxRecDepth 1000000 in
/-- C7 counterexample: with one surviving announcement candidate of
`score_promo_text` 10 (stored score 30 after the +20 zone bonus) and one
surviving banner candidate of `score_promo_text` 20, selection emits the
announcement candidate — whose §4.2 score neither exceeds 10 nor is the
highest among survivors. -/
theorem c7_counterexample :
    selectBest (collectCandidates ["Warehouse sale this week"]
        ["Clearance deal this week"] []) =
      some ⟨"Warehouse sale this week", 30, Zone.announcement⟩ ∧
    score_promo_text "Warehouse sale this week" = 10 ∧
    score_promo_text "Clearance deal this week" = 20 := by
  refine ⟨by decide, by decide, by decide⟩

/-- C7 amended: whenever selection emits a candidate, its stored score
strictly exceeds 10, is maximal among all surviving candidates' stored
scores, and equals the §4.2 `score_promo_text` plus a 20-point bonus
exactly for announcement-zone candidates. -/
theorem c7_selection (ann ban txt : List String) (c : Candidate)
    (hsel : selectBest (collectCandidates ann ban txt) = some c) :
    10 < c.score ∧ c ∈ collectCandidates ann ban txt ∧
      (∀ c' ∈ collectCandidates ann ban txt, c'.score ≤ c.score) ∧
      c.score = score_promo_text c.text +
        (if c.zone = Zone.announcement then 20 else 0) := by
  obtain ⟨h10, hmem, hmax⟩ := selectBest_spec hsel
  refine ⟨h10, hmem, hmax, ?_⟩
  rw [(collectCandidates_mem hmem).2, zoneScore_eq]

set_option maxRecDepth 1000000 in
/-- Witness for C7: the single-candidate instance. -/
theorem c7_selection_witness : (10 : Int) < 30 :=
  (c7_selection ["Warehouse sale this week"] [] []
      ⟨"Warehouse sale this week", 30, Zone.announcement⟩ (by decide)).1

set_option maxRecDepth 100000 in
/-- C8 counterexample: the token `abc123` harvested from a script is
accepted by Phase-2 mining as `ABC123` although Phase-1's guards reject
it (six characters, all hexadecimal). -/
theorem c8_counterexample :
    extract_popup_codes ["abc123"] [] [] = ["ABC123"] ∧
      phase1GuardOk "ABC123" = false ∧
      extract_code_tokens ["ABC123"] = none := by
  refine ⟨by decide, by decide, by decide⟩

/-- C8 amended: Phase-2 mining applies its own guards, not Phase-1's:
every accepted token is at least 4 characters long and off Phase-2's own
(larger) stoplist, and appears only once; the 4-15 length ceiling and the
6-character pure-hexadecimal rejection of Phase-1 are not applied. -/
theorem c8_phase2_guards (scriptTokens dataCoupons dataCodes : List String) :
    (∀ c ∈ extract_popup_codes scriptTokens dataCoupons dataCodes,
       4 ≤ c.length ∧ containsS popup_blacklist c = false) ∧
    (extract_popup_codes scriptTokens dataCoupons dataCodes).Nodup := by
  have h1 : popupInv (popupScriptFold scriptTokens []) :=
    popupScriptFold_inv scriptTokens ⟨by simp, List.nodup_nil⟩
  have h2 := popupDataFold_inv dataCoupons h1
  have h3 := popupDataFold_inv dataCodes h2
  exact ⟨h3.1, h3.2⟩

set_option maxRecDepth 100000 in
/-- Witness for C8: the guard facts for a concretely accepted token. -/
theorem c8_phase2_guards_witness :
    4 ≤ ("ABC123" : String).length ∧
      containsS popup_blacklist "ABC123" = false :=
  (c8_phase2_guards ["abc123"] [] []).1 "ABC123" (by decide)

set_option maxRecDepth 100000 in
/-- C9: the junk filter rejects a text exactly when the claim's
disjunction holds — length outside 15-300; more than two boilerplate
phrases, or at least one boilerplate phrase with fewer than eight words;
more than two occurrences of a pipe or of a bullet separator sequence; or
over 50 characters and fully upper-case — and in particular the navigation
string from Scenario B is rejected. -/
theorem c9_junk_filter :
    (∀ t : String, is_junk_text t = isJunkClaim t) ∧
      is_junk_text "Shop Now | Sign In | Cart (0)" = true := by
  constructor
  · intro t
    unfold is_junk_text isJunkClaim
    have h1 : decide (junkPhraseCount t ≥ 1) = decide (junkPhraseCount t > 0) :=
      decide_eq_decide.mpr (by omega)
    rw [h1]
    cases hA : (decide (t.length < 15) || decide (t.length > 300)) <;>
    cases hB : (decide (junkPhraseCount t > 2) ||
        (decide (junkPhraseCount t > 0) && decide (pyWordCount t < 8))) <;>
    cases hC : (decide (countSub "|".data t.data > 2) ||
        decide (countSub bulletSeq.data t.data > 2) ||
        decide (countSub angleSeq.data t.data > 2)) <;>
    cases hD : (pyIsUpper t.data && decide (t.length > 50)) <;>
    simp [hA, hB, hC, hD, Bool.and_comm]
  · decide

/-- C10: the snapshot's `emailOffers` array is built from the raw scraped
records alone — exactly those with a truthy `email_offer` contribute,
regardless of promo text, of freshness flags and of the history store. -/
theorem c10_email_offers (pf : String → Option Nat) (now : Nat)
    (promos clearance impact : List Deal) (h : History) (idx : Nat) :
    ((save_data pf now promos clearance impact h idx).1.emailOffers =
       (promos.filter (fun p => truthyS p.email_offer)).map mkEmailEntry) ∧
    (∀ h2 : History,
       (save_data pf now promos clearance impact h idx).1.emailOffers =
         (save_data pf now promos clearance impact h2 idx).1.emailOffers) ∧
    (∀ p ∈ promos, truthyS p.email_offer = true →
       mkEmailEntry p ∈
         (save_data pf now promos clearance impact h idx).1.emailOffers) := by
  refine ⟨rfl, fun h2 => rfl, ?_⟩
  intro p hp htr
  simp only [save_data]
  exact List.mem_map.mpr ⟨p, List.mem_filter.mpr ⟨hp, htr⟩, rfl⟩

set_option maxRecDepth 100000 in
/-- Witness for C10: a record with an email offer contributes its entry. -/
theorem c10_email_offers_witness :
    mkEmailEntry dealB ∈ (save_data pfNone 0 [dealB] [] [] [] 0).1.emailOffers :=
  (c10_email_offers pfNone 0 [dealB] [] [] [] 0).2.2 dealB (by decide) (by decide)

end PromoRadar
